import Mathlib

/-!
Verification of the OnlyFollow content-acquisition and caching core.

This file gives a shallow embedding, in Lean 4, of the data model and the
operations of the reference platform adapter
(`src/content/platforms/bilibili.ts`, class `BilibiliAdapter`) and of the
TTL cache store (`shared/utils/storage.ts`, class `StorageManager`), and
proves or refutes the specification's testable properties against it.

Modelling conventions:
* JavaScript `Map` objects keyed by item id are embedded as association
  lists of items (the values, in insertion order); `Map.set` updates the
  value in place (keeping the first-insertion position) or appends.
* `Array.prototype.sort` with the comparator
  `(a, b) => b.publishedAt - a.publishedAt` is embedded as a stable
  structural insertion sort by the total preorder
  `b.publishedAt ≤ a.publishedAt`: ECMAScript guarantees sort stability,
  the comparator is consistent, and a stable sort's output is uniquely
  determined by the preorder, so the insertion sort computes exactly the
  source's result (and, unlike a well-founded merge sort, reduces inside
  the kernel).
* The random shuffle `arr.sort(() => Math.random() - 0.5)` is embedded as
  an arbitrary function parameter `shuffle`; theorems that depend on it
  assume only that it permutes its input, which `Array.prototype.sort`
  guarantees for any comparator.
* `Date.now()` is an explicit `now : Nat` argument (milliseconds).
* Fallible calls are embedded with `Except`/`Option`; a `try`/`catch`
  around a body is a `match` on the body's `Except` result.
* Numeric timestamps, counts and TTLs are `Nat` (they are non-negative
  integers well inside the double-precision exact range).
* The floating-point comparison `displayed / Math.max(total, 1) >= 0.8`
  is embedded as the exact rational comparison `5 * displayed ≥ 4 * max total 1`,
  which agrees with the double computation for all realistic pool sizes.
-/

/-- A content item (`ContentItem` in `shared/types`).  Only the fields the
verified operations inspect are carried: `id` (the global dedup key),
`publishedAt` (the sort key) and representative payload fields (`title`,
`likes`, `views`) standing for the remaining metadata (author, url,
thumbnail, duration, ...), which the merge and selection logic moves
around as an opaque block. -/
structure ContentItem where
  id : String
  publishedAt : Nat
  title : String
  likes : Nat
  views : Nat
deriving DecidableEq, Repr

/-- A followed creator (`FollowedUser` in `shared/types`), reduced to the
fields the sequential updater reads. -/
structure FollowedUser where
  platformId : String
  displayName : String
deriving DecidableEq, Repr

/-- The total preorder of the comparator
`(a, b) => b.publishedAt - a.publishedAt`: `a` may come before `b` iff
`b.publishedAt ≤ a.publishedAt` (newest first). -/
def pubDesc (a b : ContentItem) : Prop := b.publishedAt ≤ a.publishedAt

instance : DecidableRel pubDesc := fun a b => Nat.decLe b.publishedAt a.publishedAt

instance : IsTotal ContentItem pubDesc :=
  ⟨fun a b => Nat.le_total b.publishedAt a.publishedAt⟩

instance : IsTrans ContentItem pubDesc :=
  ⟨fun _ _ _ h1 h2 => Nat.le_trans h2 h1⟩

/-- Stable sort by `publishedAt` descending (newest first). -/
def sortByPublishedAtDesc (l : List ContentItem) : List ContentItem :=
  List.insertionSort pubDesc l

/-- Lookup in an id-keyed association list of items: the first item whose
`id` equals the key (`Map.get`). -/
def findById : List ContentItem → String → Option ContentItem
  | [], _ => none
  | v :: m, k => if v.id = k then some v else findById m k

/-- Key-membership test (`Map.has`). -/
def hasId (m : List ContentItem) (k : String) : Bool := (findById m k).isSome

/-- `Map.set`: overwrite the value at an existing key in place, or append a
new entry. -/
def mapSet (m : List ContentItem) (v : ContentItem) : List ContentItem :=
  if hasId m v.id then m.map (fun x => if x.id = v.id then v else x) else m ++ [v]

/-- `new Map(entries)` keyed by item id, then `Array.from(map.values())`:
later entries overwrite earlier ones at the first-insertion position. -/
def mapFromList (l : List ContentItem) : List ContentItem := l.foldl mapSet []

/-- The last item of `l` carrying id `k` — the value a JS `Map` holds at
`k` after inserting all of `l` in order. -/
def lastWithId (l : List ContentItem) (k : String) : Option ContentItem :=
  findById l.reverse k

/-- Ids of a pool are pairwise distinct (the CreatorPool dedup invariant). -/
def IdsNodup (m : List ContentItem) : Prop := (m.map (fun v => v.id)).Nodup

instance (m : List ContentItem) : Decidable (IdsNodup m) :=
  show Decidable ((m.map (fun v => v.id)).Nodup) from inferInstance

/-- `CACHE_CONFIG.CONTENT`, the TTL used for creator pools.  The current
`shared/constants` module of the adapter tree documents it as 14 days
(`bilibili.ts` line 977: the merge persists with `CACHE_CONFIG.CONTENT`,
"now 14 days"); its exact value is irrelevant to the claims, which only
require both persist paths to use the same constant. -/
def CACHE_CONFIG_CONTENT : Nat := 14 * 24 * 60 * 60 * 1000

/-- The pure merge at the heart of `incrementalUpdateVideoCache`
(`bilibili.ts` 931-971): when the existing cache is non-empty, build an
id-keyed map seeded with the existing pool, overwrite with the newly
fetched items, take the values and re-sort by `publishedAt` descending;
when there is no existing cache (or it is empty), the newly fetched list
is persisted verbatim. -/
def mergePool (existingCache newVideos : List ContentItem) : List ContentItem :=
  if 0 < existingCache.length then
    sortByPublishedAtDesc (mapFromList (mapFromList existingCache ++ mapFromList newVideos))
  else newVideos

/-- The merge applied to a `StorageManager.getCache` result (`null` becomes
the empty-cache branch). -/
def mergePoolOpt (existing : Option (List ContentItem)) (newVideos : List ContentItem) :
    List ContentItem :=
  mergePool (existing.getD []) newVideos

/-- `incrementalUpdateVideoCache` (`bilibili.ts` 925-987) as a function of
the outcome of reading the existing cache: on success the merged pool is
persisted, on a thrown error the `catch` branch persists just the newly
fetched items; both with TTL `CACHE_CONFIG.CONTENT`.  The returned pair is
(persisted pool, TTL). -/
def incrementalUpdateVideoCache (existingResult : Except String (Option (List ContentItem)))
    (newVideos : List ContentItem) : List ContentItem × Nat :=
  match existingResult with
  | Except.ok existingCache => (mergePoolOpt existingCache newVideos, CACHE_CONFIG_CONTENT)
  | Except.error _ => (newVideos, CACHE_CONFIG_CONTENT)

/-! ### The TTL cache store (`StorageManager`, `shared/utils/storage.ts`) -/

/-- A stored cache entry (`CacheItem<T>` in `shared/types`; the derived
`platform` tag is omitted as pure metadata). -/
structure CacheItem (T : Type) where
  id : String
  data : T
  createdAt : Nat
  updatedAt : Nat
  expiresAt : Nat

/-- The key-value store backing `chrome.storage.local`. -/
def Store (T : Type) : Type := String → Option (CacheItem T)

/-- `StorageManager.removeCache`. -/
def removeCache {T : Type} (store : Store T) (key : String) : Store T :=
  fun k => if k = key then none else store k

/-- `StorageManager.cleanExpiredCache`: drop every `onlyfollow_`-prefixed
entry whose `expiresAt` lies in the past. -/
def cleanExpiredCache {T : Type} (store : Store T) (now : Nat) : Store T :=
  fun k =>
    match store k with
    | some it =>
        if k.startsWith "onlyfollow_" && decide (it.expiresAt < now) then none else some it
    | none => none

/-- `StorageManager.setCache` (`storage.ts` 94-117): store the value with
`createdAt = updatedAt = now` and `expiresAt = now + ttl`, then run the
expired-entry sweep. -/
def setCache {T : Type} (store : Store T) (key : String) (data : T) (ttl : Nat) (now : Nat) :
    Store T :=
  let item : CacheItem T :=
    { id := key, data := data, createdAt := now, updatedAt := now, expiresAt := now + ttl }
  cleanExpiredCache (fun k => if k = key then some item else store k) now

/-- `StorageManager.getCache` (`storage.ts` 73-91): `null` on a missing
key; on an expired entry, lazily delete it and return `null`; otherwise
return the stored data.  The pair is (returned value, store afterwards). -/
def getCache {T : Type} (store : Store T) (key : String) (now : Nat) :
    Option T × Store T :=
  match store key with
  | none => (none, store)
  | some cacheItem =>
      if cacheItem.expiresAt < now then (none, removeCache store key)
      else (some cacheItem.data, store)

/-! ### Network fetch with retry (`fetchUserVideosFromNetwork`, `bilibili.ts` 786-922) -/

/-- Outcome of one attempt of the creator-videos request, as distinguished
by the source: a successful envelope (`code === 0` with a well-formed
`vlist`, already converted to items), the rate-limit code `-799`, any
other API error (`code !== 0` or malformed payload), or a thrown error
(HTTP failure / network / JSON parse). -/
inductive AttemptOutcome where
  | success (videos : List ContentItem)
  | rateLimited
  | apiError
  | thrown
deriving DecidableEq, Repr

/-- Whether an attempt outcome is the successful one. -/
def AttemptOutcome.isSuccess : AttemptOutcome → Bool
  | AttemptOutcome.success _ => true
  | _ => false

/-- `maxRetries` in `fetchUserVideosFromNetwork`. -/
def maxRetries : Nat := 3

/-- `retryDelay` (milliseconds) in `fetchUserVideosFromNetwork`. -/
def retryDelay : Nat := 3000

/-- Result of a whole `fetchUserVideosFromNetwork` call: the number of the
attempt on which the loop ended, the inter-attempt delays performed, and
the pool written to the cache (`none` when every attempt failed and the
function returned without writing).  The function itself never throws: on
the last attempt every failure path — the `-799` and API-error `throw`s
included — lands in the `catch`, which logs and returns. -/
structure FetchOutcome where
  attempts : Nat
  delays : List Nat
  persisted : Option (List ContentItem)
deriving DecidableEq, Repr

/-- The retry loop of `fetchUserVideosFromNetwork`, from attempt number
`attempt` with `remaining` further attempts allowed after this one
(`remaining = maxRetries - attempt`).  A success converts, merges and
caches, then returns; every failure with attempts left sleeps
`retryDelay` and retries; a failure on the final attempt is swallowed and
nothing is written. -/
def fetchAttempts (outcomes : Nat → AttemptOutcome) (existing : Option (List ContentItem)) :
    Nat → Nat → FetchOutcome
  | attempt, 0 =>
    match outcomes attempt with
    | AttemptOutcome.success vs =>
        { attempts := attempt, delays := [], persisted := some (mergePoolOpt existing vs) }
    | _ => { attempts := attempt, delays := [], persisted := none }
  | attempt, r + 1 =>
    match outcomes attempt with
    | AttemptOutcome.success vs =>
        { attempts := attempt, delays := [], persisted := some (mergePoolOpt existing vs) }
    | _ =>
        let res := fetchAttempts outcomes existing (attempt + 1) r
        { attempts := res.attempts, delays := retryDelay :: res.delays,
          persisted := res.persisted }

/-- `fetchUserVideosFromNetwork` for one creator: attempts are numbered
`1..maxRetries`; `existing` is that creator's cached pool at merge time
and `outcomes a` the network's behaviour on attempt `a`. -/
def fetchUserVideosFromNetwork (outcomes : Nat → AttemptOutcome)
    (existing : Option (List ContentItem)) : FetchOutcome :=
  fetchAttempts outcomes existing 1 (maxRetries - 1)

/-! ### Sequential scheduler (`updateUsersSequentially`, `bilibili.ts` 714-783) -/

/-- The adapter's rate-limit bookkeeping fields
(`rateLimitHitCount` / `lastRateLimitTime`). -/
structure SchedState where
  rateLimitHitCount : Nat
  lastRateLimitTime : Nat
deriving DecidableEq, Repr

/-- `shouldSkipDueToRateLimit` (`bilibili.ts` 771-783): skip the rest of
the queue when at least 2 rate-limit hits are recorded and the last one
was under 10 minutes ago. -/
def shouldSkipDueToRateLimit (st : SchedState) (now : Nat) : Bool :=
  decide (2 ≤ st.rateLimitHitCount) && decide (now - st.lastRateLimitTime < 10 * 60 * 1000)

/-- The body of `updateUsersSequentially`'s loop.  Faithful detail: the
only writes to the rate-limit state anywhere in the adapter are the resets
to zero before the loop and after each fetch — `fetchUserVideosFromNetwork`
handles `-799` internally and never increments `rateLimitHitCount`, and no
other code does either.  Inter-creator delays are dropped as irrelevant to
which creators get processed. -/
def updateUsersSeqGo (outcomes : String → Nat → AttemptOutcome)
    (existing : String → Option (List ContentItem)) (now : Nat) :
    List FollowedUser → SchedState → List (FollowedUser × FetchOutcome)
  | [], _ => []
  | u :: rest, st =>
    if shouldSkipDueToRateLimit st now then []
    else
      let r := fetchUserVideosFromNetwork (outcomes u.platformId) (existing u.platformId)
      (u, r) :: updateUsersSeqGo outcomes existing now rest
        { st with rateLimitHitCount := 0 }

/-- `updateUsersSequentially`: reset the rate-limit counters, then process
the queue in order, checking the circuit breaker before each creator.
Returns the processed creators paired with their fetch results. -/
def updateUsersSequentially (users : List FollowedUser)
    (outcomes : String → Nat → AttemptOutcome)
    (existing : String → Option (List ContentItem)) (now : Nat) :
    List (FollowedUser × FetchOutcome) :=
  updateUsersSeqGo outcomes existing now users { rateLimitHitCount := 0, lastRateLimitTime := 0 }

/-! ### Selection engine (`bilibili.ts` 1254-1519) -/

/-- `totalVideosNeeded`, the display slot count. -/
def totalVideosNeeded : Nat := 20

/-- In-memory engine state: `displayedVideoIds` (a JS `Set`, i.e. a
duplicate-free list in insertion order) and `currentCachedVideos`. -/
structure EngineState where
  displayed : List String
  current : List ContentItem
deriving DecidableEq, Repr

/-- `Set.add` on `displayedVideoIds`: append if absent. -/
def addDisplayed (d : List String) (i : String) : List String :=
  if i ∈ d then d else d ++ [i]

/-- The collection map of `collectAllCachedVideos`: first occurrence of an
id wins (`if (!videoMap.has(video.id)) videoMap.set(...)`). -/
def mapSetIfAbsent (m : List ContentItem) (v : ContentItem) : List ContentItem :=
  if hasId m v.id then m else m ++ [v]

/-- Deduplicate keeping the first occurrence of each id. -/
def dedupFirstWins (l : List ContentItem) : List ContentItem :=
  l.foldl mapSetIfAbsent []

/-- `collectAllCachedVideos` (`bilibili.ts` 1255-1311) as a function of the
per-creator cached pools: flatten, dedup by id (first wins), sort by
`publishedAt` descending, and drop the already-displayed ids. -/
def collectAllCachedVideos (pools : List (List ContentItem)) (displayed : List String) :
    List ContentItem :=
  (sortByPublishedAtDesc (dedupFirstWins pools.flatten)).filter
    (fun v => decide (v.id ∉ displayed))

/-- `totalCachedVideos` as counted by `intelligentResetDisplayHistory`:
the per-creator pool lengths summed, duplicates across creators counted
twice. -/
def totalCachedCount (pools : List (List ContentItem)) : Nat :=
  (pools.map List.length).sum

/-- `Array.from(set).slice(-50)`-style suffix. -/
def takeLast {α : Type} (l : List α) (n : Nat) : List α :=
  l.drop (l.length - n)

/-- `intelligentResetDisplayHistory` (`bilibili.ts` 1428-1490), success
path: if the displayed count reaches 80% of the total cached count (the
float test `displayed / max(total, 1) >= 0.8`), or more than 200 items
were displayed while fewer than 20 remain available, keep only the 50 most
recently displayed ids and re-collect. -/
def intelligentResetDisplayHistory (pools : List (List ContentItem)) (st : EngineState) :
    EngineState :=
  if decide (4 * max (totalCachedCount pools) 1 ≤ 5 * st.displayed.length) ||
      (decide (200 < st.displayed.length) && decide (st.current.length < 20)) then
    { displayed := takeLast st.displayed 50,
      current := collectAllCachedVideos pools (takeLast st.displayed 50) }
  else st

/-- Step 1 of `handleRefreshClick` (`bilibili.ts` 1357-1372): if fewer
than `totalVideosNeeded` videos are available, re-collect, and if still
short, run the intelligent reset. -/
def refreshPrepare (pools : List (List ContentItem)) (st : EngineState) : EngineState :=
  if st.current.length < totalVideosNeeded then
    if (collectAllCachedVideos pools st.displayed).length < totalVideosNeeded then
      intelligentResetDisplayHistory pools
        { st with current := collectAllCachedVideos pools st.displayed }
    else { st with current := collectAllCachedVideos pools st.displayed }
  else st

/-- `selectVideosSmartly` (`bilibili.ts` 1493-1519): with enough
candidates, sort by `publishedAt` descending, take the newest
`latestCount = Math.ceil(count * 0.5)` — for a natural `count` this is
`(count + 1) / 2` — and fill the remaining
`randomCount = count - latestCount` slots with a random sample of the
remainder (`shuffle` stands for the `sort(() => Math.random() - 0.5)`
shuffle). -/
def selectVideosSmartly (availableVideos : List ContentItem) (count : Nat)
    (shuffle : List ContentItem → List ContentItem) : List ContentItem :=
  if availableVideos.length ≤ count then availableVideos
  else
    if 0 < count - (count + 1) / 2 ∧
        (count + 1) / 2 < (sortByPublishedAtDesc availableVideos).length then
      (sortByPublishedAtDesc availableVideos).take ((count + 1) / 2) ++
        (shuffle ((sortByPublishedAtDesc availableVideos).drop ((count + 1) / 2))).take
          (count - (count + 1) / 2)
    else (sortByPublishedAtDesc availableVideos).take ((count + 1) / 2)

/-- `handleRefreshClick` (`bilibili.ts` 1352-1425), success path: prepare
the pool, bail out on an empty pool or an empty selection, otherwise
commit the selected ids to the display history, remove them from the
available pool, and hand the selection to the renderer.  Returns the new
state and the displayed list. -/
def handleRefreshClick (pools : List (List ContentItem))
    (shuffle : List ContentItem → List ContentItem) (st : EngineState) :
    EngineState × List ContentItem :=
  if (refreshPrepare pools st).current.length = 0 then (refreshPrepare pools st, [])
  else if (selectVideosSmartly (refreshPrepare pools st).current totalVideosNeeded
      shuffle).length = 0 then (refreshPrepare pools st, [])
  else
    ({ displayed :=
         (selectVideosSmartly (refreshPrepare pools st).current totalVideosNeeded
             shuffle).foldl (fun d v => addDisplayed d v.id)
           (refreshPrepare pools st).displayed,
       current :=
         (refreshPrepare pools st).current.filter (fun v =>
           decide (v.id ∉ (selectVideosSmartly (refreshPrepare pools st).current
               totalVideosNeeded shuffle).map (fun w => w.id))) },
     selectVideosSmartly (refreshPrepare pools st).current totalVideosNeeded shuffle)

/-! ### Concrete instances used by the scenario theorems, witnesses and
counterexamples -/

/-- Pool item 1 of the spec's concrete merge scenario (newest). -/
def e1 : ContentItem := ⟨"1", 50, "t1", 1, 1⟩

/-- Pool item 2 of the concrete merge scenario. -/
def e2 : ContentItem := ⟨"2", 40, "t2", 2, 2⟩

/-- Pool item 3 of the concrete merge scenario. -/
def e3 : ContentItem := ⟨"3", 30, "t3", 3, 3⟩

/-- Pool item 4 of the concrete merge scenario. -/
def e4 : ContentItem := ⟨"4", 20, "t4", 4, 4⟩

/-- Pool item 5 of the concrete merge scenario (oldest). -/
def e5 : ContentItem := ⟨"5", 10, "t5", 5, 5⟩

/-- Re-fetched version of item 3: same id and `publishedAt`, updated
`likes`. -/
def n3 : ContentItem := ⟨"3", 30, "t3", 99, 3⟩

/-- Newly published item 6, newer than everything in the pool. -/
def n6 : ContentItem := ⟨"6", 60, "t6", 6, 6⟩

/-- An item that occurs repeatedly in a (malformed) candidate list. -/
def cx : ContentItem := ⟨"x", 10, "tx", 0, 0⟩

/-- An older companion item to `cx`. -/
def cy : ContentItem := ⟨"y", 1, "ty", 0, 0⟩

/-- Generator of a pool of items with distinct ids, newest first. -/
def cItem (i : Nat) : ContentItem := ⟨toString i, 1000 - i, "t", 0, 0⟩

/-- A 100-item pool. -/
def bigPool : List ContentItem := (List.range 100).map cItem

/-- Display history covering the first 80 of the 100 items of `bigPool`. -/
def bigDisplayed : List String := (List.range 80).map (fun i => toString i)

/-- Engine state whose history covers exactly 80% of the known items,
with the remaining 20 items collected as available. -/
def bigState : EngineState := ⟨bigDisplayed, collectAllCachedVideos [bigPool] bigDisplayed⟩

/-- Generator of a 40-item pool with distinct ids, newest first. -/
def wItem (i : Nat) : ContentItem := ⟨toString i, 100 - i, "w", 0, 0⟩

/-- A 40-item pool (twice the display slot count). -/
def wPool : List ContentItem := (List.range 40).map wItem

/-- Generator of a 30-item candidate pool for the selection scenario. -/
def sItem (i : Nat) : ContentItem := ⟨"s" ++ toString i, 300 - i, "s", 0, 0⟩

/-- The 30-item candidate pool of the selection scenario. -/
def sPool : List ContentItem := (List.range 30).map sItem

/-- Three creators queued for a sequential update. -/
def demoUsers : List FollowedUser := [⟨"u1", "u1"⟩, ⟨"u2", "u2"⟩, ⟨"u3", "u3"⟩]

/-- A sequential update of `demoUsers` in which every attempt for every
creator answers with the rate-limit code `-799`. -/
def demoRun : List (FollowedUser × FetchOutcome) :=
  updateUsersSequentially demoUsers (fun _ _ => AttemptOutcome.rateLimited)
    (fun _ => none) 1000000

/-- A single five-item creator pool. -/
def pools6 : List (List ContentItem) := [[e1, e2, e3, e4, e5]]

/-- Engine state with four of the five known items displayed and an empty
in-memory pool. -/
def st6 : EngineState := ⟨["1", "2", "3", "4"], []⟩

/-! ## Lemmas about the id-keyed map embedding -/

/-- Or with a `some` on the left keeps the left value. -/
theorem some_or {α : Type} (a : α) (o : Option α) : (some a).or o = some a := rfl

/-- Lookup distributes over append, preferring the left list. -/
theorem findById_append (A B : List ContentItem) (k : String) :
    findById (A ++ B) k = (findById A k).or (findById B k) := by
  induction A with
  | nil => simp [findById]
  | cons v A ih => by_cases h : v.id = k <;> simp [findById, h, ih, some_or]

/-- Lookup misses exactly when no element carries the key. -/
theorem findById_eq_none_iff (m : List ContentItem) (k : String) :
    findById m k = none ↔ ∀ v ∈ m, v.id ≠ k := by
  induction m with
  | nil => simp [findById]
  | cons v m ih => by_cases h : v.id = k <;> simp [findById, h, ih]

/-- Lookup hits exactly when some element carries the key. -/
theorem findById_isSome_iff (m : List ContentItem) (k : String) :
    (findById m k).isSome = true ↔ ∃ v ∈ m, v.id = k := by
  induction m with
  | nil => simp [findById]
  | cons v m ih => by_cases h : v.id = k <;> simp [findById, h, ih]

/-- A found value is a member carrying the key. -/
theorem findById_mem {m : List ContentItem} {k : String} {v : ContentItem}
    (h : findById m k = some v) : v ∈ m ∧ v.id = k := by
  induction m with
  | nil => simp [findById] at h
  | cons x m ih =>
    by_cases hx : x.id = k
    · simp [findById, hx] at h
      exact ⟨by simp [← h], by simp [← h, hx]⟩
    · simp [findById, hx] at h
      obtain ⟨h1, h2⟩ := ih h
      exact ⟨List.mem_cons_of_mem _ h1, h2⟩

/-- With pairwise-distinct ids, lookup finds any given member. -/
theorem findById_of_mem_nodup {m : List ContentItem} {v : ContentItem} {k : String}
    (hn : IdsNodup m) (hv : v ∈ m) (hk : v.id = k) : findById m k = some v := by
  induction m with
  | nil => simp at hv
  | cons x m ih =>
    rw [IdsNodup, List.map_cons, List.nodup_cons] at hn
    rcases List.mem_cons.mp hv with rfl | hv2
    · simp [findById, hk]
    · by_cases hx : x.id = k
      · exfalso
        exact hn.1 (hx ▸ hk ▸ List.mem_map_of_mem (fun w => w.id) hv2)
      · simp only [findById, hx, if_false]
        exact ih hn.2 hv2

/-- Lookup of a member's id hits. -/
theorem isSome_findById_of_mem {m : List ContentItem} {v : ContentItem}
    (hv : v ∈ m) : (findById m v.id).isSome = true :=
  (findById_isSome_iff m v.id).mpr ⟨v, hv, rfl⟩

/-- Overwriting the value at a key leaves the id sequence unchanged. -/
theorem ids_map_update (m : List ContentItem) (v : ContentItem) :
    (m.map (fun x => if x.id = v.id then v else x)).map (fun x => x.id) =
      m.map (fun x => x.id) := by
  induction m with
  | nil => rfl
  | cons x m ih => by_cases h : x.id = v.id <;> simp [h, ih]

/-- The id sequence after `Map.set`. -/
theorem ids_mapSet (m : List ContentItem) (v : ContentItem) :
    (mapSet m v).map (fun x => x.id) =
      if hasId m v.id then m.map (fun x => x.id)
      else m.map (fun x => x.id) ++ [v.id] := by
  unfold mapSet
  split
  · rw [ids_map_update]
  · simp

/-- `Map.set` preserves distinctness of ids. -/
theorem idsNodup_mapSet {m : List ContentItem} (h : IdsNodup m) (v : ContentItem) :
    IdsNodup (mapSet m v) := by
  unfold IdsNodup at *
  rw [ids_mapSet]
  split
  · exact h
  case isFalse hfalse =>
    rw [List.nodup_append]
    refine ⟨h, List.nodup_singleton _, ?_⟩
    intro i hi hi2
    rw [List.mem_singleton] at hi2
    subst hi2
    obtain ⟨w, hw, hwid⟩ := List.mem_map.mp hi
    have : (findById m v.id).isSome = true := (findById_isSome_iff m v.id).mpr ⟨w, hw, hwid⟩
    rw [hasId, this] at hfalse
    exact hfalse rfl

/-- Folding `Map.set` preserves distinctness of ids. -/
theorem idsNodup_foldl_mapSet (l : List ContentItem) :
    ∀ m : List ContentItem, IdsNodup m → IdsNodup (l.foldl mapSet m) := by
  induction l with
  | nil => intro m h; exact h
  | cons v l ih => intro m h; exact ih _ (idsNodup_mapSet h v)

/-- The map built from any list has pairwise-distinct ids. -/
theorem idsNodup_mapFromList (l : List ContentItem) : IdsNodup (mapFromList l) :=
  idsNodup_foldl_mapSet l [] (by simp [IdsNodup])

/-- Last-value lookup unfolds on a cons cell. -/
theorem lastWithId_cons (v : ContentItem) (l : List ContentItem) (k : String) :
    lastWithId (v :: l) k = (lastWithId l k).or (if v.id = k then some v else none) := by
  unfold lastWithId
  rw [List.reverse_cons, findById_append]
  have hone : findById [v] k = if v.id = k then some v else none := by
    by_cases h : v.id = k <;> simp [findById, h]
  rw [hone]

/-- Lookup after an in-place value update at key `v.id`. -/
theorem findById_map_update (m : List ContentItem) (v : ContentItem) (k : String) :
    findById (m.map (fun x => if x.id = v.id then v else x)) k =
      if v.id = k then (findById m k).map (fun _ => v) else findById m k := by
  induction m with
  | nil => by_cases h : v.id = k <;> simp [findById, h]
  | cons x m ih =>
    by_cases hx : x.id = v.id
    · by_cases hv : v.id = k
      · have hxk : x.id = k := hx.trans hv
        simp [findById, hx, hv, hxk]
      · have hxk : ¬ x.id = k := fun h => hv (hx ▸ h)
        simp [findById, hx, hv, hxk, ih]
    · by_cases hxk : x.id = k
      · have hv : ¬ v.id = k := fun h => hx (hxk.trans h.symm)
        have hv2 : ¬ k = v.id := fun h => hv h.symm
        simp [findById, hx, hxk, hv, hv2]
      · simp [findById, hx, hxk, ih]

/-- Lookup after `Map.set`: the set key now maps to the new value. -/
theorem findById_mapSet (m : List ContentItem) (v : ContentItem) (k : String) :
    findById (mapSet m v) k = if v.id = k then some v else findById m k := by
  unfold mapSet
  by_cases h : hasId m v.id
  · rw [if_pos h, findById_map_update]
    by_cases hv : v.id = k
    · rw [if_pos hv, if_pos hv]
      rw [hasId] at h
      subst hv
      cases hf : findById m v.id
      · rw [hf] at h; simp at h
      · simp
    · rw [if_neg hv, if_neg hv]
  · rw [if_neg h, findById_append]
    by_cases hv : v.id = k
    · have : findById m k = none := by
        rw [findById_eq_none_iff]
        intro w hw hwk
        have : (findById m v.id).isSome = true :=
          (findById_isSome_iff m v.id).mpr ⟨w, hw, hv ▸ hwk⟩
        rw [hasId, this] at h
        exact h rfl
      simp [this, findById, hv]
    · simp [findById, hv, Option.or_none]

/-- Lookup after folding a list into a map: the last matching entry of the
folded list wins, else the base map answers. -/
theorem findById_foldl_mapSet (l : List ContentItem) :
    ∀ (m : List ContentItem) (k : String),
      findById (l.foldl mapSet m) k = (lastWithId l k).or (findById m k) := by
  induction l with
  | nil => intro m k; simp [lastWithId, findById]
  | cons v l ih =>
    intro m k
    rw [List.foldl_cons, ih, lastWithId_cons, findById_mapSet]
    cases hl : lastWithId l k
    · by_cases hv : v.id = k <;> simp [hv, some_or]
    · simp [some_or]

/-- The map of a list answers with the last entry for each id. -/
theorem findById_mapFromList (l : List ContentItem) (k : String) :
    findById (mapFromList l) k = lastWithId l k := by
  rw [mapFromList, findById_foldl_mapSet]
  simp [findById]

/-- Folding fresh, pairwise-distinct entries into a map appends them. -/
theorem foldl_mapSet_eq_append (l : List ContentItem) :
    ∀ m : List ContentItem, IdsNodup (m ++ l) → l.foldl mapSet m = m ++ l := by
  induction l with
  | nil => intro m _; simp
  | cons v l ih =>
    intro m hn
    have hfresh : hasId m v.id = false := by
      rw [IdsNodup, List.map_append] at hn
      have hnm := hn
      rw [List.nodup_append] at hnm
      cases hh : hasId m v.id
      · rfl
      · exfalso
        rw [hasId] at hh
        obtain ⟨w, hw, hwk⟩ := (findById_isSome_iff m v.id).mp hh
        exact hnm.2.2 (List.mem_map_of_mem _ hw) (by simp [hwk])
    have hset : mapSet m v = m ++ [v] := by rw [mapSet, hfresh]; simp
    rw [List.foldl_cons, hset, ih (m ++ [v]) (by simpa using hn)]
    simp

/-- Building a map from an already-deduplicated list is the identity. -/
theorem mapFromList_eq_self {m : List ContentItem} (h : IdsNodup m) :
    mapFromList m = m := by
  rw [mapFromList, foldl_mapSet_eq_append m [] (by simpa using h)]
  simp

/-- `Map.set` never shrinks the map. -/
theorem length_mapSet_ge (m : List ContentItem) (v : ContentItem) :
    m.length ≤ (mapSet m v).length := by
  unfold mapSet; split <;> simp

/-- Folding entries into a map never shrinks it. -/
theorem length_foldl_mapSet_ge (l : List ContentItem) :
    ∀ m : List ContentItem, m.length ≤ (l.foldl mapSet m).length := by
  induction l with
  | nil => intro m; simp
  | cons v l ih =>
    intro m
    exact (length_mapSet_ge m v).trans (ih (mapSet m v))

/-- The map of a nonempty list is nonempty. -/
theorem mapFromList_length_pos {l : List ContentItem} (h : 0 < l.length) :
    0 < (mapFromList l).length := by
  cases l with
  | nil => simp at h
  | cons v t =>
    rw [mapFromList, List.foldl_cons]
    have h1 : mapSet [] v = [v] := rfl
    rw [h1]
    exact Nat.lt_of_lt_of_le (by simp) (length_foldl_mapSet_ge t [v])

/-- Distinctness of ids transfers along permutations. -/
theorem idsNodup_of_perm {l l2 : List ContentItem} (h : IdsNodup l) (p : l.Perm l2) :
    IdsNodup l2 := by
  unfold IdsNodup at h ⊢
  exact (p.map (fun v => v.id)).nodup h

/-- With pairwise-distinct ids, lookup is permutation-invariant. -/
theorem findById_eq_of_perm {l l2 : List ContentItem} (hn : IdsNodup l)
    (p : l.Perm l2) (k : String) : findById l k = findById l2 k := by
  cases hf : findById l k with
  | none =>
    symm
    rw [findById_eq_none_iff] at hf ⊢
    intro v hv
    exact hf v (p.symm.subset hv)
  | some v =>
    obtain ⟨hm, hk⟩ := findById_mem hf
    exact (findById_of_mem_nodup (idsNodup_of_perm hn p) (p.subset hm) hk).symm

/-- With pairwise-distinct ids, the last entry for a key is the first. -/
theorem lastWithId_eq_findById {m : List ContentItem} (h : IdsNodup m) (k : String) :
    lastWithId m k = findById m k := by
  rw [lastWithId]
  refine findById_eq_of_perm ?_ (List.reverse_perm m) k
  rw [IdsNodup, List.map_reverse, List.nodup_reverse]
  exact h

/-- The last entry for a member's own id exists. -/
theorem isSome_lastWithId_of_mem {m : List ContentItem} {v : ContentItem}
    (h : v ∈ m) : (lastWithId m v.id).isSome = true :=
  isSome_findById_of_mem (List.mem_reverse.mpr h)

/-- A value stored in the map of `l` is the last entry of `l` for its id. -/
theorem mem_mapFromList_lastWithId {l : List ContentItem} {v : ContentItem}
    (h : v ∈ mapFromList l) : lastWithId l v.id = some v := by
  rw [← findById_mapFromList]
  exact findById_of_mem_nodup (idsNodup_mapFromList l) h rfl

/-! ## Lemmas about the descending sort -/

/-- The sort output is sorted by `publishedAt` descending. -/
theorem sortDesc_sorted (l : List ContentItem) :
    (sortByPublishedAtDesc l).Pairwise pubDesc :=
  List.sorted_insertionSort pubDesc l

/-- The sort permutes its input. -/
theorem perm_sortDesc (l : List ContentItem) : (sortByPublishedAtDesc l).Perm l :=
  List.perm_insertionSort pubDesc l

/-- Sorting an already-sorted list is the identity. -/
theorem sortDesc_of_sorted {l : List ContentItem} (h : l.Pairwise pubDesc) :
    sortByPublishedAtDesc l = l :=
  List.Sorted.insertionSort_eq h

/-- In-place value update at a key nobody carries is the identity. -/
theorem map_update_of_none {m : List ContentItem} {v : ContentItem}
    (h : ∀ w ∈ m, w.id ≠ v.id) :
    m.map (fun x => if x.id = v.id then v else x) = m := by
  induction m with
  | nil => rfl
  | cons x m ih =>
    have hx : x.id ≠ v.id := h x (by simp)
    simp only [List.map_cons, if_neg hx]
    rw [ih (fun w hw => h w (List.mem_cons_of_mem _ hw))]

/-- Updating a deduplicated map at a key whose current value is already
the new value is the identity. -/
theorem map_update_self {m : List ContentItem} {v : ContentItem}
    (hn : IdsNodup m) (h : findById m v.id = some v) :
    m.map (fun x => if x.id = v.id then v else x) = m := by
  induction m with
  | nil => rfl
  | cons x m ih =>
    rw [IdsNodup, List.map_cons, List.nodup_cons] at hn
    have h2 : (if x.id = v.id then some x else findById m v.id) = some v := h
    by_cases hx : x.id = v.id
    · rw [if_pos hx] at h2
      have hxv : x = v := Option.some.inj h2
      subst hxv
      simp only [List.map_cons, if_pos hx]
      rw [map_update_of_none (fun w hw hwk =>
        hn.1 (hx ▸ hwk ▸ List.mem_map_of_mem (fun y => y.id) hw))]
      simp
    · rw [if_neg hx] at h2
      simp only [List.map_cons, if_neg hx]
      rw [ih hn.2 h2]

/-- `Map.set` of a value the deduplicated map already holds at its own id
is the identity. -/
theorem mapSet_of_findById_self {m : List ContentItem} {v : ContentItem}
    (hn : IdsNodup m) (h : findById m v.id = some v) : mapSet m v = m := by
  rw [mapSet, hasId, h]
  simp only [Option.isSome_some, if_true]
  exact map_update_self hn h

/-! ## Characterization of the incremental merge on a nonempty pool -/

/-- On a nonempty existing pool, the merge produces a pool with
pairwise-distinct ids, pairwise ordered for the comparator, nonempty, and
answering lookups with the last fetched entry for the id when the fetch
carries it, else the last existing entry. -/
theorem mergePool_spec (E N : List ContentItem) (hE : 0 < E.length) :
    IdsNodup (mergePool E N) ∧
    (mergePool E N).Pairwise pubDesc ∧
    0 < (mergePool E N).length ∧
    (∀ k, findById (mergePool E N) k = (lastWithId N k).or (lastWithId E k)) := by
  rw [mergePool, if_pos hE]
  have hU : mapFromList (mapFromList E ++ mapFromList N) =
      (mapFromList N).foldl mapSet (mapFromList E) := by
    rw [mapFromList, List.foldl_append]
    have : (mapFromList E).foldl mapSet [] = mapFromList E :=
      mapFromList_eq_self (idsNodup_mapFromList E)
    rw [show List.foldl mapSet [] (mapFromList E) = (mapFromList E).foldl mapSet [] from rfl,
      this]
  have hUn : IdsNodup (mapFromList (mapFromList E ++ mapFromList N)) :=
    idsNodup_mapFromList _
  have hperm := perm_sortDesc (mapFromList (mapFromList E ++ mapFromList N))
  refine ⟨idsNodup_of_perm hUn hperm.symm, sortDesc_sorted _, ?_, ?_⟩
  · rw [hperm.length_eq, hU]
    have h1 : 0 < (mapFromList E).length := mapFromList_length_pos hE
    exact Nat.lt_of_lt_of_le h1 (length_foldl_mapSet_ge (mapFromList N) (mapFromList E))
  · intro k
    rw [← findById_eq_of_perm hUn hperm.symm k, hU, findById_foldl_mapSet,
      findById_mapFromList,
      lastWithId_eq_findById (idsNodup_mapFromList N), findById_mapFromList]

/-- Claim C1 (amended to a nonempty existing pool): for every nonempty
existing cached pool `E` and every fetched list `N`, the merge persists
the deduplicated union of `E` and `N` keyed by item id — the entry at a
key is the fetched one when `N` carries the key, else the existing one —
sorted by `publishedAt` descending; every id present in `E` is still
present, so the merged length is at least the number of distinct ids of
`E` (the size of `E` minus its duplicates). -/
theorem c1_incremental_merge (E N : List ContentItem) (hE : 0 < E.length) :
    (mergePool E N).Pairwise pubDesc ∧
    IdsNodup (mergePool E N) ∧
    (∀ k, findById (mergePool E N) k = (lastWithId N k).or (lastWithId E k)) ∧
    (∀ v ∈ E, hasId (mergePool E N) v.id = true) ∧
    (E.map (fun v => v.id)).toFinset.card ≤ (mergePool E N).length := by
  obtain ⟨hn, hs, hpos, hfind⟩ := mergePool_spec E N hE
  have hhas : ∀ v ∈ E, hasId (mergePool E N) v.id = true := by
    intro v hv
    rw [hasId, hfind v.id, Option.isSome_or, isSome_lastWithId_of_mem hv]
    simp
  refine ⟨hs, hn, hfind, hhas, ?_⟩
  · have hsub : (E.map (fun v => v.id)).toFinset ⊆
        ((mergePool E N).map (fun v => v.id)).toFinset := by
      intro i hi
      rw [List.mem_toFinset] at hi ⊢
      obtain ⟨v, hv, hvi⟩ := List.mem_map.mp hi
      have h1 := hhas v hv
      rw [hasId] at h1
      obtain ⟨w, hw, hwk⟩ := (findById_isSome_iff _ _).mp h1
      exact List.mem_map.mpr ⟨w, hw, hwk.trans hvi⟩
    calc (E.map (fun v => v.id)).toFinset.card
        ≤ ((mergePool E N).map (fun v => v.id)).toFinset.card := Finset.card_le_card hsub
      _ = ((mergePool E N).map (fun v => v.id)).length :=
          List.toFinset_card_of_nodup hn
      _ = (mergePool E N).length := List.length_map _ _

/-- Claim C1 witness: the amended theorem applied at a one-item pool and
a one-item fetch. -/
theorem c1_incremental_merge_witness :
    0 < ([e1] : List ContentItem).length ∧ hasId (mergePool [e1] [n6]) e1.id = true :=
  ⟨by decide, (c1_incremental_merge [e1] [n6] (by decide)).2.2.2.1 e1 (by decide)⟩

/-- Claim C1 counterexample: with the existing cached pool empty (a state
the code persists, e.g. after a fetch whose `vlist` is empty), the merge
stores the fetched list verbatim, so fetching two items in ascending
`publishedAt` order persists a pool that is not sorted descending. -/
theorem c1_counterexample :
    ¬ (mergePool [] [e2, e1]).Pairwise pubDesc := by
  decide

/-- Claim C8: merging the concrete pool 1..5 (newest first) with the
fetch consisting of the re-fetched item 3 (same `publishedAt`, updated
`likes`) and the brand-new item 6 yields exactly the pool
6, 1, 2, 3-updated, 4, 5; the entry at id 3 is the re-fetched record —
same `publishedAt` as before, new `likes` — and 6 sorts first. -/
theorem c8_concrete_merge :
    mergePool [e1, e2, e3, e4, e5] [n3, n6] = [n6, e1, e2, n3, e4, e5] ∧
    findById (mergePool [e1, e2, e3, e4, e5] [n3, n6]) "3" = some n3 ∧
    n3.publishedAt = e3.publishedAt ∧ n3.likes ≠ e3.likes := by
  refine ⟨by decide, by decide, by decide, by decide⟩

/-- Folding into a deduplicated map entries it already holds verbatim is
the identity. -/
theorem foldl_mapSet_id (M : List ContentItem) (hn : IdsNodup M) :
    ∀ l : List ContentItem, (∀ v ∈ l, findById M v.id = some v) →
      l.foldl mapSet M = M := by
  intro l
  induction l with
  | nil => intro _; rfl
  | cons v l ih =>
    intro hkeep
    rw [List.foldl_cons, mapSet_of_findById_self hn (hkeep v (by simp))]
    exact ih (fun w hw => hkeep w (List.mem_cons_of_mem _ hw))

/-- Claim C9 (amended to a nonempty existing pool): merging the same
fetched batch twice into a nonempty pool equals merging it once. -/
theorem c9_merge_idempotent (E N : List ContentItem) (hE : 0 < E.length) :
    mergePool (mergePool E N) N = mergePool E N := by
  obtain ⟨hn, hs, hpos, hfind⟩ := mergePool_spec E N hE
  rw [mergePool, if_pos hpos]
  have hU : mapFromList (mapFromList (mergePool E N) ++ mapFromList N) =
      (mapFromList N).foldl mapSet (mapFromList (mergePool E N)) := by
    rw [mapFromList, List.foldl_append]
    have h1 : (mapFromList (mergePool E N)).foldl mapSet [] = mapFromList (mergePool E N) :=
      mapFromList_eq_self (idsNodup_mapFromList _)
    rw [show List.foldl mapSet [] (mapFromList (mergePool E N)) =
        (mapFromList (mergePool E N)).foldl mapSet [] from rfl, h1]
  have hkeep : ∀ v ∈ mapFromList N, findById (mergePool E N) v.id = some v := by
    intro v hv
    rw [hfind v.id, mem_mapFromList_lastWithId hv, some_or]
  rw [hU, mapFromList_eq_self hn, foldl_mapSet_id (mergePool E N) hn (mapFromList N) hkeep]
  exact sortDesc_of_sorted hs

/-- Claim C9 witness: idempotence at a concrete nonempty pool. -/
theorem c9_merge_idempotent_witness :
    0 < ([e1] : List ContentItem).length ∧
    mergePool (mergePool [e1] [n6]) [n6] = mergePool [e1] [n6] :=
  ⟨by decide, c9_merge_idempotent [e1] [n6] (by decide)⟩

/-- Claim C9 counterexample: with an empty existing pool the merge stores
the fetch verbatim (unsorted, undeduplicated), so a second merge of the
same batch re-sorts it and the result differs. -/
theorem c9_counterexample :
    mergePool (mergePool [] [e2, e1]) [e2, e1] ≠ mergePool [] [e2, e1] := by
  decide

/-- Claim C10: when reading the existing cache (or merging) throws, the
catch branch persists exactly the newly fetched items, with the same TTL
constant `CACHE_CONFIG.CONTENT` as the success path, discarding whatever
pool had accumulated before. -/
theorem c10_catch_persists_new_only (err : String) (N : List ContentItem)
    (E : Option (List ContentItem)) :
    incrementalUpdateVideoCache (Except.error err) N = (N, CACHE_CONFIG_CONTENT) ∧
    (incrementalUpdateVideoCache (Except.ok E) N).2 = CACHE_CONFIG_CONTENT :=
  ⟨rfl, rfl⟩

/-- Claim C7: immediately after `setCache(key, value, t)` at time `now`,
the stored entry has `expiresAt = createdAt + t` (with
`createdAt = now`) and `getCache(key)` returns the stored value; once the
clock advances past `createdAt + t`, `getCache(key)` returns `null` and
lazily deletes the entry; `getCache` of an absent key returns `null`. -/
theorem c7_ttl_cache {T : Type} (store : Store T) (key : String) (data : T)
    (ttl now now2 : Nat) :
    (setCache store key data ttl now) key =
      some { id := key, data := data, createdAt := now, updatedAt := now,
             expiresAt := now + ttl } ∧
    (getCache (setCache store key data ttl now) key now).1 = some data ∧
    (now + ttl < now2 →
      (getCache (setCache store key data ttl now) key now2).1 = none ∧
      (getCache (setCache store key data ttl now) key now2).2 key = none) ∧
    (store key = none → (getCache store key now).1 = none) := by
  have hnotexp : ¬ (now + ttl < now) := by omega
  have hset : (setCache store key data ttl now) key =
      some { id := key, data := data, createdAt := now, updatedAt := now,
             expiresAt := now + ttl } := by
    rw [setCache, cleanExpiredCache]
    simp [hnotexp]
  refine ⟨hset, ?_, ?_, ?_⟩
  · rw [getCache, hset]
    simp [hnotexp]
  · intro h
    rw [getCache, hset]
    simp [h, removeCache]
  · intro h
    rw [getCache, h]

/-- Claim C7 witness: the theorem instantiated at a fresh store with
ttl 5 written at time 10 and read at time 16. -/
theorem c7_ttl_cache_witness :
    10 + 5 < 16 ∧
    (getCache (setCache (fun _ => (none : Option (CacheItem Nat))) "k" 7 5 10) "k" 16).1 =
      none :=
  ⟨by decide,
   ((c7_ttl_cache (fun _ => none) "k" 7 5 10 16).2.2.1 (by decide)).1⟩

/-- The attempt number reached by the retry loop never exceeds the
attempts allowed. -/
theorem fetchAttempts_bound (outcomes : Nat → AttemptOutcome)
    (existing : Option (List ContentItem)) :
    ∀ (r attempt : Nat),
      attempt ≤ (fetchAttempts outcomes existing attempt r).attempts ∧
      (fetchAttempts outcomes existing attempt r).attempts ≤ attempt + r := by
  intro r
  induction r with
  | zero =>
    intro attempt
    rw [fetchAttempts]
    cases outcomes attempt <;> simp
  | succ r ih =>
    intro attempt
    rw [fetchAttempts]
    cases outcomes attempt
    case success vs => simp
    all_goals
      have h := ih (attempt + 1)
      simp only []
      exact ⟨by omega, by omega⟩

/-- Every inter-attempt delay the retry loop performs is `retryDelay`. -/
theorem fetchAttempts_delays (outcomes : Nat → AttemptOutcome)
    (existing : Option (List ContentItem)) :
    ∀ (r attempt : Nat),
      ∀ d ∈ (fetchAttempts outcomes existing attempt r).delays, d = retryDelay := by
  intro r
  induction r with
  | zero =>
    intro attempt
    rw [fetchAttempts]
    cases outcomes attempt <;> simp
  | succ r ih =>
    intro attempt
    rw [fetchAttempts]
    cases outcomes attempt
    case success vs => simp
    all_goals
      intro d hd
      rcases List.mem_cons.mp hd with rfl | hd2
      · rfl
      · exact ih (attempt + 1) d hd2

/-- When no attempt in the window succeeds, the loop writes nothing. -/
theorem fetchAttempts_fail_none (outcomes : Nat → AttemptOutcome)
    (existing : Option (List ContentItem)) :
    ∀ (r attempt : Nat),
      (∀ a, attempt ≤ a → a ≤ attempt + r → (outcomes a).isSuccess = false) →
      (fetchAttempts outcomes existing attempt r).persisted = none := by
  intro r
  induction r with
  | zero =>
    intro attempt hfail
    rw [fetchAttempts]
    cases h : outcomes attempt
    case success vs =>
      have := hfail attempt (Nat.le_refl _) (Nat.le_refl _)
      rw [h] at this
      simp [AttemptOutcome.isSuccess] at this
    all_goals rfl
  | succ r ih =>
    intro attempt hfail
    rw [fetchAttempts]
    cases h : outcomes attempt
    case success vs =>
      have := hfail attempt (Nat.le_refl _) (by omega)
      rw [h] at this
      simp [AttemptOutcome.isSuccess] at this
    all_goals
      exact ih (attempt + 1) (fun a h1 h2 => hfail a (by omega) (by omega))

/-- Claim C3: for every creator and every sequence of network responses,
`fetchUserVideosFromNetwork` makes between 1 and 3 attempts, every
inter-attempt delay is the fixed 3 seconds, and when no attempt succeeds
nothing is written to the cache — the creator's pool stays as-is.  The
function is modelled as a total function into `FetchOutcome`: every
failure path, including the rate-limit and API-error `throw`s of the
final attempt, lands in the `catch` that logs and returns, so no
exception escapes and a batch caller is never aborted. -/
theorem c3_fetch_retry_contained (outcomes : Nat → AttemptOutcome)
    (existing : Option (List ContentItem)) :
    (1 ≤ (fetchUserVideosFromNetwork outcomes existing).attempts ∧
      (fetchUserVideosFromNetwork outcomes existing).attempts ≤ 3) ∧
    (∀ d ∈ (fetchUserVideosFromNetwork outcomes existing).delays, d = retryDelay) ∧
    ((∀ a, 1 ≤ a → a ≤ 3 → (outcomes a).isSuccess = false) →
      (fetchUserVideosFromNetwork outcomes existing).persisted = none) := by
  obtain ⟨h1, h2⟩ := fetchAttempts_bound outcomes existing (maxRetries - 1) 1
  refine ⟨⟨h1, ?_⟩, fetchAttempts_delays outcomes existing (maxRetries - 1) 1, ?_⟩
  · rw [fetchUserVideosFromNetwork]
    simpa [maxRetries] using h2
  · intro hfail
    exact fetchAttempts_fail_none outcomes existing (maxRetries - 1) 1
      (fun a ha1 ha2 => hfail a ha1 (by simp [maxRetries] at ha2; omega))

/-- Claim C3 witness: a creator whose every attempt is rate limited ends
with no cache write after at most 3 attempts. -/
theorem c3_fetch_retry_contained_witness :
    (fetchUserVideosFromNetwork (fun _ => AttemptOutcome.rateLimited) none).persisted =
      none ∧
    (fetchUserVideosFromNetwork (fun _ => AttemptOutcome.rateLimited) none).attempts ≤ 3 :=
  ⟨(c3_fetch_retry_contained (fun _ => AttemptOutcome.rateLimited) none).2.2
      (fun _ _ _ => rfl),
   (c3_fetch_retry_contained (fun _ => AttemptOutcome.rateLimited) none).1.2⟩

/-- With the rate-limit counter at zero, the sequential loop processes
every queued creator: the skip test compares the counter against the
threshold 2, and the only writes to the counter anywhere in the adapter
set it to zero. -/
theorem updateUsersSeqGo_processes_all (outcomes : String → Nat → AttemptOutcome)
    (existing : String → Option (List ContentItem)) (now : Nat) :
    ∀ (users : List FollowedUser) (st : SchedState),
      st.rateLimitHitCount = 0 →
      (updateUsersSeqGo outcomes existing now users st).map Prod.fst = users := by
  intro users
  induction users with
  | nil => intro st _; rfl
  | cons u rest ih =>
    intro st h
    have hskip : shouldSkipDueToRateLimit st now = false := by
      rw [shouldSkipDueToRateLimit, h]
      simp
    rw [updateUsersSeqGo, hskip]
    simp only [Bool.false_eq_true, if_false, List.map_cons, List.cons.injEq]
    exact ⟨trivial, ih _ rfl⟩

/-- Claim C2 (code bug): the sequential updater never stops early —
`rateLimitHitCount` is never incremented anywhere in the adapter
(`fetchUserVideosFromNetwork` handles the `-799` rate-limit code
internally and reports nothing), so `shouldSkipDueToRateLimit` always
sees 0 and the circuit breaker the claim describes can never trip.  In
particular, a queue of three creators whose every attempt is rate
limited is still processed in full, with no creator skipped and nothing
written for any of them. -/
theorem c2_circuit_breaker_never_trips :
    (∀ (users : List FollowedUser) (outcomes : String → Nat → AttemptOutcome)
        (existing : String → Option (List ContentItem)) (now : Nat),
      (updateUsersSequentially users outcomes existing now).map Prod.fst = users) ∧
    demoRun.map Prod.fst = demoUsers ∧
    demoRun.all (fun p => p.2.persisted.isNone) = true := by
  refine ⟨?_, by decide, by decide⟩
  intro users outcomes existing now
  exact updateUsersSeqGo_processes_all outcomes existing now users _ rfl

/-! ## Lemmas about the selection engine -/

/-- Everything the smart selection picks comes from the available pool,
whenever the shuffle permutes its input. -/
theorem select_subset (avail : List ContentItem) (count : Nat)
    (shuffle : List ContentItem → List ContentItem)
    (hsh : ∀ l, (shuffle l).Perm l) :
    ∀ v ∈ selectVideosSmartly avail count shuffle, v ∈ avail := by
  intro v hv
  rw [selectVideosSmartly] at hv
  by_cases hlen : avail.length ≤ count
  · rw [if_pos hlen] at hv
    exact hv
  · rw [if_neg hlen] at hv
    have hperm := perm_sortDesc avail
    split at hv
    · rcases List.mem_append.mp hv with h1 | h2
      · exact hperm.subset (List.mem_of_mem_take h1)
      · have h3 := (hsh _).subset (List.mem_of_mem_take h2)
        exact hperm.subset (List.mem_of_mem_drop h3)
    · exact hperm.subset (List.mem_of_mem_take hv)

/-- With more candidates than slots, the smart selection fills every
slot. -/
theorem select_length (avail : List ContentItem) (count : Nat)
    (shuffle : List ContentItem → List ContentItem)
    (hsh : ∀ l, (shuffle l).Perm l) (hcnt : count < avail.length) :
    (selectVideosSmartly avail count shuffle).length = count := by
  rw [selectVideosSmartly, if_neg (Nat.not_le.mpr hcnt)]
  have hslen : (sortByPublishedAtDesc avail).length = avail.length :=
    (perm_sortDesc avail).length_eq
  split
  case isTrue h =>
    rw [List.length_append, List.length_take, List.length_take,
      (hsh _).length_eq, List.length_drop, hslen]
    omega
  case isFalse h =>
    rw [List.length_take, hslen]
    omega

/-- The first `ceil(count / 2)` picks are exactly the newest candidates. -/
theorem select_take (avail : List ContentItem) (count : Nat)
    (shuffle : List ContentItem → List ContentItem) (hcnt : count < avail.length) :
    (selectVideosSmartly avail count shuffle).take ((count + 1) / 2) =
      (sortByPublishedAtDesc avail).take ((count + 1) / 2) := by
  rw [selectVideosSmartly, if_neg (Nat.not_le.mpr hcnt)]
  have hslen : (sortByPublishedAtDesc avail).length = avail.length :=
    (perm_sortDesc avail).length_eq
  split
  case isTrue h =>
    rw [List.take_append_of_le_length (by rw [List.length_take]; omega),
      List.take_take]
    congr 1
    omega
  case isFalse h =>
    rw [List.take_take]
    congr 1
    omega

/-- The remaining picks are sampled from the remainder (everything after
the newest `ceil(count / 2)` of the sorted candidates). -/
theorem select_drop_subset (avail : List ContentItem) (count : Nat)
    (shuffle : List ContentItem → List ContentItem)
    (hsh : ∀ l, (shuffle l).Perm l) (hcnt : count < avail.length) :
    ∀ v ∈ (selectVideosSmartly avail count shuffle).drop ((count + 1) / 2),
      v ∈ (sortByPublishedAtDesc avail).drop ((count + 1) / 2) := by
  intro v hv
  rw [selectVideosSmartly, if_neg (Nat.not_le.mpr hcnt)] at hv
  split at hv
  case isTrue h =>
    have hlen : ((sortByPublishedAtDesc avail).take ((count + 1) / 2)).length =
        (count + 1) / 2 := by
      rw [List.length_take]
      omega
    nth_rewrite 1 [← hlen] at hv
    rw [List.drop_left] at hv
    exact (hsh _).subset (List.mem_of_mem_take hv)
  case isFalse h =>
    rw [List.drop_eq_nil_of_le (by rw [List.length_take]; omega)] at hv
    simp at hv

/-- The smart selection of an id-deduplicated pool has pairwise-distinct
ids. -/
theorem select_ids_nodup (avail : List ContentItem) (count : Nat)
    (shuffle : List ContentItem → List ContentItem)
    (hsh : ∀ l, (shuffle l).Perm l) (hn : IdsNodup avail) :
    IdsNodup (selectVideosSmartly avail count shuffle) := by
  rw [selectVideosSmartly]
  by_cases hlen : avail.length ≤ count
  · rw [if_pos hlen]
    exact hn
  · rw [if_neg hlen]
    have hsn : IdsNodup (sortByPublishedAtDesc avail) :=
      idsNodup_of_perm hn (perm_sortDesc avail).symm
    split
    · have hbig : ((sortByPublishedAtDesc avail).take ((count + 1) / 2) ++
          shuffle ((sortByPublishedAtDesc avail).drop ((count + 1) / 2))).Perm
            (sortByPublishedAtDesc avail) := by
        calc (sortByPublishedAtDesc avail).take ((count + 1) / 2) ++
            shuffle ((sortByPublishedAtDesc avail).drop ((count + 1) / 2))
            |>.Perm ((sortByPublishedAtDesc avail).take ((count + 1) / 2) ++
              (sortByPublishedAtDesc avail).drop ((count + 1) / 2)) :=
              List.Perm.append_left _ (hsh _)
          _ = sortByPublishedAtDesc avail := List.take_append_drop _ _
      have hsub : ((sortByPublishedAtDesc avail).take ((count + 1) / 2) ++
          (shuffle ((sortByPublishedAtDesc avail).drop ((count + 1) / 2))).take
            (count - (count + 1) / 2)).Sublist
          ((sortByPublishedAtDesc avail).take ((count + 1) / 2) ++
            shuffle ((sortByPublishedAtDesc avail).drop ((count + 1) / 2))) :=
        List.Sublist.append_left (List.take_sublist _ _) _
      unfold IdsNodup at hsn ⊢
      refine List.Nodup.sublist (hsub.map (fun v => v.id)) ?_
      exact ((hbig.map (fun v => v.id)).symm).nodup hsn
    · unfold IdsNodup at hsn ⊢
      exact List.Nodup.sublist
        ((List.take_sublist ((count + 1) / 2) (sortByPublishedAtDesc avail)).map
          (fun v => v.id)) hsn

/-- Claim C4 (amended: the candidate list has pairwise-distinct ids, as
every list the pipeline feeds to the selection does): for every candidate
list holding more than `count` items and every permuting shuffle, the
selection returns exactly `count` items with pairwise-distinct ids,
consisting of the `ceil(count * 0.5)` newest candidates (the head of the
descending sort) plus `count - ceil(count * 0.5)` items sampled from the
remainder. -/
theorem c4_rank_and_sample (avail : List ContentItem) (count : Nat)
    (shuffle : List ContentItem → List ContentItem)
    (hsh : ∀ l, (shuffle l).Perm l) (hn : IdsNodup avail)
    (hcnt : count < avail.length) :
    (selectVideosSmartly avail count shuffle).length = count ∧
    IdsNodup (selectVideosSmartly avail count shuffle) ∧
    (selectVideosSmartly avail count shuffle).take ((count + 1) / 2) =
      (sortByPublishedAtDesc avail).take ((count + 1) / 2) ∧
    (∀ v ∈ (selectVideosSmartly avail count shuffle).drop ((count + 1) / 2),
      v ∈ (sortByPublishedAtDesc avail).drop ((count + 1) / 2)) :=
  ⟨select_length avail count shuffle hsh hcnt,
   select_ids_nodup avail count shuffle hsh hn,
   select_take avail count shuffle hcnt,
   select_drop_subset avail count shuffle hsh hcnt⟩

/-- Claim C4 witness: the spec's concrete scenario — selecting 10 from a
30-item candidate set yields exactly 10 items with distinct ids whose
first 5 are the 5 most recent by `publishedAt`. -/
theorem c4_rank_and_sample_witness :
    (10 < sPool.length ∧ IdsNodup sPool) ∧
    (selectVideosSmartly sPool 10 id).length = 10 ∧
    (selectVideosSmartly sPool 10 id).take 5 = (sortByPublishedAtDesc sPool).take 5 :=
  ⟨⟨by decide, by decide⟩,
   (c4_rank_and_sample sPool 10 id (fun l => List.Perm.refl l) (by decide) (by decide)).1,
   (c4_rank_and_sample sPool 10 id (fun l => List.Perm.refl l) (by decide) (by decide)).2.2.1⟩

/-- Claim C4 counterexample: on a candidate list with a repeated item the
selection repeats it — the list [x, x, x, y] with count 3 yields [x, x, x]
under the identity draw of the shuffle, which is not 3 distinct items. -/
theorem c4_counterexample :
    3 < ([cx, cx, cx, cy] : List ContentItem).length ∧
    ¬ IdsNodup (selectVideosSmartly [cx, cx, cx, cy] 3 id) := by
  refine ⟨by decide, ?_⟩
  rw [IdsNodup]
  decide

/-- Claim C6 (amended): the history reset is not driven by coverage
alone — it runs only when a selection call finds fewer than the needed
`totalVideosNeeded` videos even after re-collection.  When that holds and
`DisplayHistory` covers at least 80% of the total cached count, the call
truncates the history to (at most) its 50 most recently added entries and
re-runs collection against the truncated history, so previously shown
items may be re-offered. -/
theorem c6_reset_when_short (pools : List (List ContentItem)) (st : EngineState)
    (h1 : st.current.length < totalVideosNeeded)
    (h2 : (collectAllCachedVideos pools st.displayed).length < totalVideosNeeded)
    (h3 : 4 * max (totalCachedCount pools) 1 ≤ 5 * st.displayed.length) :
    refreshPrepare pools st =
      { displayed := takeLast st.displayed 50,
        current := collectAllCachedVideos pools (takeLast st.displayed 50) } := by
  rw [refreshPrepare, if_pos h1, if_pos h2, intelligentResetDisplayHistory]
  simp [h3]

/-- Claim C6 witness: the amended theorem at a five-item pool with four
items displayed (80% coverage) and an exhausted in-memory pool. -/
theorem c6_reset_when_short_witness :
    (st6.current.length < totalVideosNeeded ∧
     (collectAllCachedVideos pools6 st6.displayed).length < totalVideosNeeded ∧
     4 * max (totalCachedCount pools6) 1 ≤ 5 * st6.displayed.length) ∧
    refreshPrepare pools6 st6 =
      { displayed := takeLast st6.displayed 50,
        current := collectAllCachedVideos pools6 (takeLast st6.displayed 50) } :=
  ⟨⟨by decide, by decide, by decide⟩,
   c6_reset_when_short pools6 st6 (by decide) (by decide) (by decide)⟩

set_option maxRecDepth 8000 in
/-- Claim C6 counterexample: a state whose history covers exactly 80% of
the 100 known cached items (80 of its ids are pool items) but still has
20 videos available.  The next selection call performs no truncation at
all: it selects the 20 available videos and commits them, leaving the
history with all 100 entries — not the at most 50 + 20 the claimed
truncation would allow. -/
theorem c6_counterexample :
    4 * max (totalCachedCount [bigPool]) 1 ≤ 5 * bigState.displayed.length ∧
    bigState.displayed.length = 80 ∧
    (handleRefreshClick [bigPool] id bigState).1.displayed.length = 100 := by
  refine ⟨by decide, by decide, by decide⟩

/-- With enough available videos, the refresh preparation is a no-op. -/
theorem refreshPrepare_of_enough (pools : List (List ContentItem)) (st : EngineState)
    (h : totalVideosNeeded ≤ st.current.length) :
    refreshPrepare pools st = st := by
  rw [refreshPrepare, if_neg (Nat.not_lt.mpr h)]

/-- The refresh handler on a state the preparation leaves alone, when
videos are available and selected: commit the selection to the history
and cut it from the pool. -/
theorem handleRefreshClick_eq (pools : List (List ContentItem))
    (shuffle : List ContentItem → List ContentItem) (st : EngineState)
    (hprep : refreshPrepare pools st = st)
    (hne : st.current.length ≠ 0)
    (hsel : (selectVideosSmartly st.current totalVideosNeeded shuffle).length ≠ 0) :
    handleRefreshClick pools shuffle st =
      ({ displayed :=
           (selectVideosSmartly st.current totalVideosNeeded shuffle).foldl
             (fun d v => addDisplayed d v.id) st.displayed,
         current :=
           st.current.filter (fun v =>
             decide (v.id ∉ (selectVideosSmartly st.current totalVideosNeeded
                 shuffle).map (fun w => w.id))) },
       selectVideosSmartly st.current totalVideosNeeded shuffle) := by
  rw [handleRefreshClick, hprep, if_neg hne, if_neg hsel]

/-- Whatever the refresh handler displays was in the available pool,
provided the preparation left the state alone. -/
theorem handleRefreshClick_snd_subset (pools : List (List ContentItem))
    (shuffle : List ContentItem → List ContentItem) (st : EngineState)
    (hsh : ∀ l, (shuffle l).Perm l)
    (hprep : refreshPrepare pools st = st) :
    ∀ v ∈ (handleRefreshClick pools shuffle st).2, v ∈ st.current := by
  intro v hv
  rw [handleRefreshClick, hprep] at hv
  by_cases h0 : st.current.length = 0
  · rw [if_pos h0] at hv
    simp at hv
  · rw [if_neg h0] at hv
    by_cases hs : (selectVideosSmartly st.current totalVideosNeeded shuffle).length = 0
    · rw [if_pos hs] at hv
      simp at hv
    · rw [if_neg hs] at hv
      exact select_subset st.current totalVideosNeeded shuffle hsh v hv

/-- Ids after a dedup-respecting first-wins insertion. -/
theorem ids_mapSetIfAbsent (m : List ContentItem) (v : ContentItem) :
    (mapSetIfAbsent m v).map (fun x => x.id) =
      if hasId m v.id then m.map (fun x => x.id)
      else m.map (fun x => x.id) ++ [v.id] := by
  rw [mapSetIfAbsent]
  split
  · rfl
  · simp

/-- First-wins insertion preserves distinctness of ids. -/
theorem idsNodup_mapSetIfAbsent {m : List ContentItem} (h : IdsNodup m)
    (v : ContentItem) : IdsNodup (mapSetIfAbsent m v) := by
  unfold IdsNodup at *
  rw [ids_mapSetIfAbsent]
  split
  · exact h
  case isFalse hfalse =>
    rw [List.nodup_append]
    refine ⟨h, List.nodup_singleton _, ?_⟩
    intro i hi hi2
    rw [List.mem_singleton] at hi2
    subst hi2
    obtain ⟨w, hw, hwid⟩ := List.mem_map.mp hi
    have : (findById m v.id).isSome = true := (findById_isSome_iff m v.id).mpr ⟨w, hw, hwid⟩
    rw [hasId, this] at hfalse
    exact hfalse rfl

/-- The first-wins dedup produces pairwise-distinct ids. -/
theorem idsNodup_dedupFirstWins (l : List ContentItem) :
    IdsNodup (dedupFirstWins l) := by
  rw [dedupFirstWins]
  have haux : ∀ (t : List ContentItem) (m : List ContentItem), IdsNodup m →
      IdsNodup (t.foldl mapSetIfAbsent m) := by
    intro t
    induction t with
    | nil => intro m h; exact h
    | cons v t ih => intro m h; exact ih _ (idsNodup_mapSetIfAbsent h v)
  exact haux l [] (by simp [IdsNodup])

/-- The collection step produces pairwise-distinct ids. -/
theorem idsNodup_collect (pools : List (List ContentItem)) (displayed : List String) :
    IdsNodup (collectAllCachedVideos pools displayed) := by
  rw [collectAllCachedVideos]
  have h2 : IdsNodup (sortByPublishedAtDesc (dedupFirstWins pools.flatten)) :=
    idsNodup_of_perm (idsNodup_dedupFirstWins _) (perm_sortDesc _).symm
  unfold IdsNodup at h2 ⊢
  refine List.Nodup.sublist ?_ h2
  exact List.Sublist.map (fun v : ContentItem => v.id) (List.filter_sublist _)

/-- Nothing the collection step returns is in the display history. -/
theorem collect_excludes_displayed {pools : List (List ContentItem)}
    {displayed : List String} {v : ContentItem}
    (h : v ∈ collectAllCachedVideos pools displayed) : v.id ∉ displayed := by
  rw [collectAllCachedVideos] at h
  exact of_decide_eq_true (List.mem_filter.mp h).2

/-- A filter and its complement split the length. -/
theorem length_filter_add_length_filter_neg {α : Type} (p : α → Bool) (l : List α) :
    (l.filter p).length + (l.filter (fun a => !(p a))).length = l.length := by
  induction l with
  | nil => rfl
  | cons x l ih =>
    by_cases h : p x = true
    · simp [List.filter_cons, h]
      omega
    · have h2 : p x = false := by simpa using h
      simp [List.filter_cons, h2]
      omega

/-- Filtering out at most `ks.length` distinct ids removes at most
`ks.length` items from an id-deduplicated list. -/
theorem length_filter_not_mem_ge (ks : List String) {l : List ContentItem}
    (hn : IdsNodup l) :
    l.length ≤ (l.filter (fun v => decide (v.id ∉ ks))).length + ks.length := by
  have hsplit := length_filter_add_length_filter_neg (fun v => decide (v.id ∉ ks)) l
  have hneg : (l.filter (fun v => !(decide (v.id ∉ ks)))).length ≤ ks.length := by
    have hnodup : ((l.filter (fun v => !(decide (v.id ∉ ks)))).map (fun v => v.id)).Nodup := by
      unfold IdsNodup at hn
      refine List.Nodup.sublist ?_ hn
      exact List.Sublist.map (fun v : ContentItem => v.id) (List.filter_sublist _)
    have hsubset : ∀ i ∈ (l.filter (fun v => !(decide (v.id ∉ ks)))).map (fun v => v.id),
        i ∈ ks := by
      intro i hi
      obtain ⟨v, hv, hvi⟩ := List.mem_map.mp hi
      have h2 := (List.mem_filter.mp hv).2
      have h3 : v.id ∈ ks := by
        by_contra hcontra
        simp [hcontra] at h2
      exact hvi ▸ h3
    calc (l.filter (fun v => !(decide (v.id ∉ ks)))).length
        = ((l.filter (fun v => !(decide (v.id ∉ ks)))).map (fun v => v.id)).length :=
          (List.length_map _ _).symm
      _ ≤ ks.length := (List.subperm_of_subset hnodup hsubset).length_le
  omega

/-- Membership after a `Set.add` on the display history. -/
theorem mem_addDisplayed {d : List String} {j i : String} :
    i ∈ addDisplayed d j ↔ i ∈ d ∨ i = j := by
  rw [addDisplayed]
  split
  case isTrue h =>
    constructor
    · exact Or.inl
    · rintro (hi | rfl)
      · exact hi
      · exact h
  case isFalse h => simp

/-- Membership after committing a selection to the display history. -/
theorem mem_foldl_addDisplayed (vs : List ContentItem) :
    ∀ (d : List String) (i : String),
      i ∈ vs.foldl (fun d v => addDisplayed d v.id) d ↔
        i ∈ d ∨ ∃ v ∈ vs, v.id = i := by
  induction vs with
  | nil => intro d i; simp
  | cons v vs ih =>
    intro d i
    rw [List.foldl_cons, ih, mem_addDisplayed]
    constructor
    · rintro ((hd | rfl) | ⟨w, hw, rfl⟩)
      · exact Or.inl hd
      · exact Or.inr ⟨v, List.mem_cons_self v vs, rfl⟩
      · exact Or.inr ⟨w, List.mem_cons_of_mem _ hw, rfl⟩
    · rintro (hd | ⟨w, hw, rfl⟩)
      · exact Or.inl (Or.inl hd)
      · rcases List.mem_cons.mp hw with rfl | hw2
        · exact Or.inl (Or.inr rfl)
        · exact Or.inr ⟨w, hw2, rfl⟩

/-- Claim C5: starting from any display history `d0` with its collected
pool, two refresh-click runs in a row never repeat an item, provided the
collected candidate pool holds at least `2 * totalVideosNeeded` items:
every id in the history committed by the first run (in particular every
id the first run selected) is absent from the second run's displayed
list.  Under the pool-size premise neither run re-collects or resets, so
no history reset intervenes. -/
theorem c5_no_repeat_across_runs (pools : List (List ContentItem)) (d0 : List String)
    (shuffle1 shuffle2 : List ContentItem → List ContentItem)
    (hs1 : ∀ l, (shuffle1 l).Perm l) (hs2 : ∀ l, (shuffle2 l).Perm l)
    (hbig : 2 * totalVideosNeeded ≤ (collectAllCachedVideos pools d0).length) :
    ∀ v ∈ (handleRefreshClick pools shuffle2
        (handleRefreshClick pools shuffle1
          ⟨d0, collectAllCachedVideos pools d0⟩).1).2,
      v.id ∉ (handleRefreshClick pools shuffle1
          ⟨d0, collectAllCachedVideos pools d0⟩).1.displayed := by
  intro v hv
  set C0 := collectAllCachedVideos pools d0 with hC0def
  have hC0n : IdsNodup C0 := by
    rw [hC0def]
    exact idsNodup_collect pools d0
  have htv : 0 < totalVideosNeeded := by decide
  have hlen0 : totalVideosNeeded < C0.length := by omega
  set sel1 := selectVideosSmartly C0 totalVideosNeeded shuffle1 with hsel1def
  have hsel1len : sel1.length = totalVideosNeeded := by
    rw [hsel1def]
    exact select_length C0 totalVideosNeeded shuffle1 hs1 hlen0
  have hprep1 : refreshPrepare pools ⟨d0, C0⟩ = ⟨d0, C0⟩ :=
    refreshPrepare_of_enough pools ⟨d0, C0⟩ (Nat.le_of_lt hlen0)
  have hrun1 : handleRefreshClick pools shuffle1 ⟨d0, C0⟩ =
      ({ displayed := sel1.foldl (fun d v => addDisplayed d v.id) d0,
         current := C0.filter (fun v =>
           decide (v.id ∉ sel1.map (fun w => w.id))) }, sel1) := by
    refine handleRefreshClick_eq pools shuffle1 ⟨d0, C0⟩ hprep1 ?_ ?_
    · show C0.length ≠ 0
      omega
    · show sel1.length ≠ 0
      omega
  set d1 := sel1.foldl (fun d v => addDisplayed d v.id) d0 with hd1def
  set C1 := C0.filter (fun v => decide (v.id ∉ sel1.map (fun w => w.id))) with hC1def
  have hC1len : totalVideosNeeded ≤ C1.length := by
    have hsplit := length_filter_not_mem_ge (sel1.map (fun w => w.id)) hC0n
    rw [List.length_map, hsel1len] at hsplit
    rw [hC1def]
    omega
  have hprep2 : refreshPrepare pools ⟨d1, C1⟩ = ⟨d1, C1⟩ :=
    refreshPrepare_of_enough pools ⟨d1, C1⟩ hC1len
  rw [hrun1] at hv ⊢
  have hvC1 : v ∈ C1 :=
    handleRefreshClick_snd_subset pools shuffle2 ⟨d1, C1⟩ hs2 hprep2 v hv
  rw [hC1def] at hvC1
  obtain ⟨hvC0, hnotin⟩ := List.mem_filter.mp hvC1
  have hnotsel1 : v.id ∉ sel1.map (fun w => w.id) := of_decide_eq_true hnotin
  have hnotd0 : v.id ∉ d0 := by
    rw [hC0def] at hvC0
    exact collect_excludes_displayed hvC0
  show v.id ∉ d1
  rw [hd1def, mem_foldl_addDisplayed]
  rintro (hd | ⟨w, hw, hwid⟩)
  · exact hnotd0 hd
  · exact hnotsel1 (hwid ▸ List.mem_map_of_mem (fun w => w.id) hw)

set_option maxRecDepth 8000 in
/-- Claim C5 witness: on a 40-item pool with empty initial history, an
item of the second run's selection — item 20 — is displayed by the
second run and absent from the history the first run committed. -/
theorem c5_no_repeat_across_runs_witness :
    2 * totalVideosNeeded ≤ (collectAllCachedVideos [wPool] []).length ∧
    wItem 20 ∈ (handleRefreshClick [wPool] id
        (handleRefreshClick [wPool] id
          ⟨[], collectAllCachedVideos [wPool] []⟩).1).2 ∧
    (wItem 20).id ∉ (handleRefreshClick [wPool] id
        ⟨[], collectAllCachedVideos [wPool] []⟩).1.displayed := by
  refine ⟨by decide, by decide, ?_⟩
  exact c5_no_repeat_across_runs [wPool] [] id id (fun l => List.Perm.refl l)
    (fun l => List.Perm.refl l) (by decide) (wItem 20) (by decide)
